import Mathlib

/-!
Verification of the node-enumerable lazy sequence library
(src/js/enumerable_1.ts) against its specification.

Two complementary shallow embeddings are used.

1. A pull-trace model: a lazy sequence is represented by the trace of its
   pulls, a `List (Except Err A)`.  The k-th entry is what the k-th call of
   the iterator protocol produces: `Except.ok v` when the pull yields the
   value `v`, `Except.error e` when the pull throws `e`.  A JavaScript
   for-of loop stops at the first throw, so nothing after the first error
   entry of a trace is ever observable; all operators cut their output
   trace at the first error accordingly.  Operator construction is
   modelled by a `...Build` function returning `Except Err (ESeq B)`:
   the source method body runs argument normalisation and then returns
   `from(<generator>)` without starting the generator, so a `Build`
   function returns `Except.error` exactly when the method body itself
   throws before returning the new sequence.  The generator semantics
   (what the returned sequence produces when pulled) is the `...Tr`
   function it wraps.

2. A plain list model for the extensional behaviour of the operators on
   error-free input, mirroring the generator loops of the source, used by
   the functional-correctness claims.

Machine integers: JavaScript numbers that are used as counters and
indices are modelled as `Int` (the library only adds, subtracts and
compares them; no overflow is reachable for the list sizes involved).
-/

set_option linter.unusedVariables false

namespace NodeEnumerable

/-- Values thrown by JavaScript code (strings or Error objects in the
source) are modelled as strings. -/
abbrev Err := String

/-- The pull trace of a lazy sequence: entry k is the outcome of the k-th
pull (a value, or a thrown error).  A finite trace means the sequence
eventually signals done. -/
abbrev ESeq (α : Type) := List (Except Err α)

/-- Source: `EnumerableBase.toArray`: consume the sequence with a for-of loop,
collecting values; the first pull that throws aborts the consumption with
that error. -/
def toArrayE {α : Type} : ESeq α → Except Err (List α)
  | [] => Except.ok []
  | Except.ok x :: rest => (toArrayE rest).map (fun xs => x :: xs)
  | Except.error e :: _ => Except.error e

/-- The `comparer?: EqualityComparer<T> | true` argument shape of the
source: absent, the literal `true`, or a custom two-argument predicate. -/
inductive EqComparerArg (α : Type) where
  | missing : EqComparerArg α
  | strict : EqComparerArg α
  | custom (f : α → α → Bool) : EqComparerArg α

/-- Source: `toEqualityComparerSafe`: absent comparer becomes loose equality
`(x, y) => x == y`, the literal `true` becomes strict equality
`(x, y) => x === y`, a custom predicate is used as given.  The JavaScript
`==` and `===` on the element domain are supplied as `looseEq` and
`strictEq`. -/
def toEqualityComparerSafe {α : Type} (looseEq strictEq : α → α → Bool) :
    EqComparerArg α → (α → α → Bool)
  | EqComparerArg.missing => looseEq
  | EqComparerArg.strict => strictEq
  | EqComparerArg.custom f => f

/-- Generator `_selectManyInner`: for each upstream value, evaluate the
selector (which may throw) and yield every item of the resulting
sequence.  An upstream throw or a selector throw ends the trace with that
error. -/
def selectManyTr {α β : Type} (sel : α → Except Err (List β)) : ESeq α → ESeq β
  | [] => []
  | Except.error e :: _ => [Except.error e]
  | Except.ok x :: rest =>
    match sel x with
    | Except.error e => [Except.error e]
    | Except.ok ys => ys.map Except.ok ++ selectManyTr sel rest

/-- Source: `select` is implemented as `selectMany(x => [selector(x)])`. -/
def selectTr {α β : Type} (f : α → Except Err β) (src : ESeq α) : ESeq β :=
  selectManyTr (fun x => (f x).map (fun y => [y])) src

/-- Generator `_whereInner`: yield the upstream values satisfying the
predicate. -/
def whereTr {α : Type} (p : α → Bool) : ESeq α → ESeq α
  | [] => []
  | Except.error e :: _ => [Except.error e]
  | Except.ok x :: rest =>
    if p x then Except.ok x :: whereTr p rest else whereTr p rest

/-- Generator `_distinctByInner` specialised to `distinct` (selector is
the identity): keep a growing buffer `temp` of already seen values and
yield a value only when no buffered value compares equal to it. -/
def distinctTrAux {α : Type} (cmp : α → α → Bool) (temp : List α) : ESeq α → ESeq α
  | [] => []
  | Except.error e :: _ => [Except.error e]
  | Except.ok x :: rest =>
    if temp.any (fun t => cmp x t) then distinctTrAux cmp temp rest
    else Except.ok x :: distinctTrAux cmp (temp ++ [x]) rest

/-- Source: `distinct` starts with an empty buffer. -/
def distinctTr {α : Type} (cmp : α → α → Bool) (src : ESeq α) : ESeq α :=
  distinctTrAux cmp [] src

/-- Generator `_exceptInner`: yield the upstream values that are equal to
no element of the (already materialised) second array. -/
def exceptTr {α : Type} (second : List α) (cmp : α → α → Bool) : ESeq α → ESeq α
  | [] => []
  | Except.error e :: _ => [Except.error e]
  | Except.ok x :: rest =>
    if second.any (fun s => cmp x s) then exceptTr second cmp rest
    else Except.ok x :: exceptTr second cmp rest

/-- Generator `_intersectInner`: yield the upstream values that are equal
to some element of the (already materialised) second array. -/
def intersectTr {α : Type} (second : List α) (cmp : α → α → Bool) : ESeq α → ESeq α
  | [] => []
  | Except.error e :: _ => [Except.error e]
  | Except.ok x :: rest =>
    if second.any (fun s => cmp x s) then Except.ok x :: intersectTr second cmp rest
    else intersectTr second cmp rest

/-- Source: `skip(count)` is `skipWhile(() => count-- > 0)`; `_skipWhileInner`
pulls every upstream element, dropping them while the counter predicate
holds, then yields everything (the predicate is no longer called). -/
def skipTr {α : Type} (count : Int) : ESeq α → ESeq α
  | [] => []
  | Except.error e :: _ => [Except.error e]
  | Except.ok x :: rest =>
    if count > 0 then skipTr (count - 1) rest else Except.ok x :: rest

/-- Source: `take(count)` is `takeWhile(() => count-- > 0)`; `_takeWhileInner`
pulls an element first and only then tests the predicate, so the element
just past the kept prefix is still pulled (and its error still thrown)
before the loop breaks. -/
def takeTr {α : Type} (count : Int) : ESeq α → ESeq α
  | [] => []
  | Except.error e :: _ => [Except.error e]
  | Except.ok x :: rest =>
    if count > 0 then Except.ok x :: takeTr (count - 1) rest else []

/-- Generator `_concatArrayInner`: yield the upstream fully, then each of
the argument sequences in order. -/
def concatArrayTr {α : Type} (seqs : List (ESeq α)) : ESeq α → ESeq α
  | [] =>
    match seqs with
    | [] => []
    | s :: ss => concatArrayTr ss s
  | Except.error e :: _ => [Except.error e]
  | Except.ok x :: rest => Except.ok x :: concatArrayTr seqs rest

/-- Source: `concat(second)` is `concatArray([second])`. -/
def concatTr {α : Type} (second : ESeq α) (src : ESeq α) : ESeq α :=
  concatArrayTr [second] src

/-- Generator `_intersperseInner`: before every upstream value except the
first, yield all separators.  The upstream pull happens before the
separators for that element are emitted. -/
def intersperseTrAux {α : Type} (seps : List α) (isFirst : Bool) : ESeq α → ESeq α
  | [] => []
  | Except.error e :: _ => [Except.error e]
  | Except.ok x :: rest =>
    (if isFirst then [Except.ok x] else seps.map Except.ok ++ [Except.ok x]) ++
      intersperseTrAux seps false rest

/-- Source: `intersperse(...separators)`. -/
def intersperseTr {α : Type} (seps : List α) (src : ESeq α) : ESeq α :=
  intersperseTrAux seps true src

/-- Source: `getNextChunkArray(size)`: pull elements into an array until the
array length reaches `size` (a first pushed element already satisfies the
break condition when `size <= 1`) or the upstream is done. -/
def getNextChunkArray {α : Type} (size : Int) (acc : List α) :
    ESeq α → Except Err (List α) × ESeq α
  | [] => (Except.ok acc, [])
  | Except.error e :: rest => (Except.error e, rest)
  | Except.ok x :: rest =>
    let acc2 := acc ++ [x]
    if (acc2.length : Int) ≥ size then (Except.ok acc2, rest)
    else getNextChunkArray size acc2 rest

/-- Generator `_chunkInner`: repeatedly materialise the next chunk,
stopping at the first empty one.  The unbounded `while (true)` loop is
modelled with fuel; every non-final round consumes at least one trace
entry, so fuel equal to the trace length is enough. -/
def chunkTrAux {α : Type} (size : Int) : Nat → ESeq α → ESeq (List α)
  | 0, _ => []
  | fuel + 1, src =>
    match getNextChunkArray size [] src with
    | (Except.error e, _) => [Except.error e]
    | (Except.ok [], _) => []
    | (Except.ok (x :: xs), rest) => Except.ok (x :: xs) :: chunkTrAux size fuel rest

/-- Source: `chunk(size)` trace (fuel initialised to the trace length). -/
def chunkTr {α : Type} (size : Int) (src : ESeq α) : ESeq (List α) :=
  chunkTrAux size (src.length + 1) src

/-- Generator `_cloneInner`: the body first runs `this.toArray()` (so the
first pull throws if the upstream does), then yields `count` sequences
over the materialised items, each mapped through the optional item
selector.  The values of the yielded sequences are materialised as lists.
A missing `count` (NaN) clones forever; the model covers the finite
case.  `idView` casts the unselected items into the result element type
(in the source both types coincide and it is the identity). -/
def cloneTr {α β : Type} (count : Nat) (sel : Option (α → β)) (src : ESeq α)
    (idView : α → β) : ESeq (List β) :=
  match toArrayE src with
  | Except.error e => [Except.error e]
  | Except.ok items =>
    List.replicate count
      (Except.ok (match sel with
        | none => items.map idView
        | some f => items.map f))

/-- Source: `flatten` is `selectMany(x => !isSequence(x) ? [x] : x)`; the element
domain distinguishes non-sequence values (`Sum.inl`) from nested
sequences (`Sum.inr`). -/
def flattenTr {α : Type} (src : ESeq (Sum α (List α))) : ESeq α :=
  selectManyTr
    (fun x => Except.ok (match x with
      | Sum.inl v => [v]
      | Sum.inr s => s))
    src

/-- Generator `zipInner`: pull this, stop if done; pull second, stop if
done; yield the combined value with the zero-based pair index
(pre-incremented from -1, so the first pair gets index 0). -/
def zipTrAux {α β γ : Type} (f : α → β → Nat → γ) (i : Nat) :
    ESeq α → ESeq β → ESeq γ
  | [], _ => []
  | Except.error e :: _, _ => [Except.error e]
  | Except.ok _ :: _, [] => []
  | Except.ok _ :: _, Except.error e :: _ => [Except.error e]
  | Except.ok x :: xs, Except.ok y :: ys =>
    Except.ok (f x y i) :: zipTrAux f (i + 1) xs ys

/-- Source: `zip` trace (index starts at 0). -/
def zipTr {α β γ : Type} (f : α → β → Nat → γ) (src : ESeq α) (second : ESeq β) :
    ESeq γ :=
  zipTrAux f 0 src second

/-- Generator `_pipeInner`: run the action (which may throw) on each
value with its zero-based index, then yield the value unchanged. -/
def pipeTrAux {α : Type} (act : α → Nat → Except Err Unit) (i : Nat) :
    ESeq α → ESeq α
  | [] => []
  | Except.error e :: _ => [Except.error e]
  | Except.ok x :: rest =>
    match act x i with
    | Except.error e => [Except.error e]
    | Except.ok _ => Except.ok x :: pipeTrAux act (i + 1) rest

/-- Source: `pipe(action)` trace. -/
def pipeTr {α : Type} (act : α → Nat → Except Err Unit) (src : ESeq α) : ESeq α :=
  pipeTrAux act 0 src

/-! ### Operator construction

Each `...Build` function models the body of the corresponding operator
method: argument normalisation followed by `return from(<generator>)`.
Calling a JavaScript generator function evaluates its arguments but does
not start its body, so the only code that runs at construction time is
the argument normalisation — which for `except` and `intersect` includes
`from(second).distinct().toArray()`, a full materialisation of the second
sequence. -/

/-- Source: `selectMany(selector)`: `return from(this._selectManyInner(selector))`. -/
def selectManyBuild {α β : Type} (sel : α → Except Err (List β)) (src : ESeq α) :
    Except Err (ESeq β) :=
  Except.ok (selectManyTr sel src)

/-- Source: `select(selector)`: `return this.selectMany(x => [selector(x)])`. -/
def selectBuild {α β : Type} (f : α → Except Err β) (src : ESeq α) :
    Except Err (ESeq β) :=
  selectManyBuild (fun x => (f x).map (fun y => [y])) src

/-- Source: `where(predicate)`: `return from(this._whereInner(predicate))`. -/
def whereBuild {α : Type} (p : α → Bool) (src : ESeq α) : Except Err (ESeq α) :=
  Except.ok (whereTr p src)

/-- Source: `distinct(comparer)`, via `distinctBy` with the identity selector:
comparer normalisation then `return from(this._distinctByInner(...))`. -/
def distinctBuild {α : Type} (looseEq strictEq : α → α → Bool)
    (cmpArg : EqComparerArg α) (src : ESeq α) : Except Err (ESeq α) :=
  Except.ok (distinctTr (toEqualityComparerSafe looseEq strictEq cmpArg) src)

/-- Source: `except(second, comparer)`:
`return from(this._exceptInner(from(second).distinct().toArray(), toEqualityComparerSafe(comparer)))`.
The generator argument `from(second).distinct().toArray()` is evaluated
before the generator is created, so a throw while iterating `second`
escapes from the `except` call itself. -/
def exceptBuild {α : Type} (looseEq strictEq : α → α → Bool) (second : ESeq α)
    (cmpArg : EqComparerArg α) (src : ESeq α) : Except Err (ESeq α) :=
  match toArrayE (distinctTr looseEq second) with
  | Except.error e => Except.error e
  | Except.ok arr =>
    Except.ok (exceptTr arr (toEqualityComparerSafe looseEq strictEq cmpArg) src)

/-- Source: `intersect(second, comparer)`: same shape as `except`. -/
def intersectBuild {α : Type} (looseEq strictEq : α → α → Bool) (second : ESeq α)
    (cmpArg : EqComparerArg α) (src : ESeq α) : Except Err (ESeq α) :=
  match toArrayE (distinctTr looseEq second) with
  | Except.error e => Except.error e
  | Except.ok arr =>
    Except.ok (intersectTr arr (toEqualityComparerSafe looseEq strictEq cmpArg) src)

/-- Source: `union(second, comparer)`: `return this.concat(second).distinct(comparer)` —
both steps are deferred, so `second` is not touched at construction. -/
def unionBuild {α : Type} (looseEq strictEq : α → α → Bool) (second : ESeq α)
    (cmpArg : EqComparerArg α) (src : ESeq α) : Except Err (ESeq α) :=
  Except.ok (distinctTr (toEqualityComparerSafe looseEq strictEq cmpArg)
    (concatTr second src))

/-- Source: `skip(count)`: `parseInt` (NaN, i.e. a missing argument, becomes 1),
then `skipWhile` with the counter predicate. -/
def skipBuild {α : Type} (count : Option Int) (src : ESeq α) : Except Err (ESeq α) :=
  Except.ok (skipTr (count.getD 1) src)

/-- Source: `take(count)`: `parseInt` (NaN becomes 1), then `takeWhile` with the
counter predicate. -/
def takeBuild {α : Type} (count : Option Int) (src : ESeq α) : Except Err (ESeq α) :=
  Except.ok (takeTr (count.getD 1) src)

/-- Source: `concat(...args)` / `concatArray(sequences)`:
`return from(this._concatArrayInner(sequences))`. -/
def concatArrayBuild {α : Type} (seqs : List (ESeq α)) (src : ESeq α) :
    Except Err (ESeq α) :=
  Except.ok (concatArrayTr seqs src)

/-- Source: `intersperse(...separators)`:
`return from(this._intersperseInner(separators))`. -/
def intersperseBuild {α : Type} (seps : List α) (src : ESeq α) :
    Except Err (ESeq α) :=
  Except.ok (intersperseTr seps src)

/-- Source: `chunk(size)`: `parseInt` (NaN becomes 1), then
`return from(this._chunkInner(size))`. -/
def chunkBuild {α : Type} (size : Option Int) (src : ESeq α) :
    Except Err (ESeq (List α)) :=
  Except.ok (chunkTr (size.getD 1) src)

/-- Source: `clone(count, itemSelector)`: `parseInt` on the count, then
`return from(this._cloneInner(count, itemSelector))`. -/
def cloneBuild {α β : Type} (count : Nat) (sel : Option (α → β)) (src : ESeq α)
    (idView : α → β) : Except Err (ESeq (List β)) :=
  Except.ok (cloneTr count sel src idView)

/-- Source: `flatten()`: `return this.selectMany(x => !isSequence(x) ? [x] : x)`. -/
def flattenBuild {α : Type} (src : ESeq (Sum α (List α))) : Except Err (ESeq α) :=
  Except.ok (flattenTr src)

/-- Source: `zip(second, resultSelector)`:
`return from(this.zipInner(from(second), resultSelector))` — `from` only
wraps, it pulls nothing. -/
def zipBuild {α β γ : Type} (second : ESeq β) (f : α → β → Nat → γ) (src : ESeq α) :
    Except Err (ESeq γ) :=
  Except.ok (zipTr f src second)

/-- Source: `pipe(action)`: `return from(this._pipeInner(action))`. -/
def pipeBuild {α : Type} (act : α → Nat → Except Err Unit) (src : ESeq α) :
    Except Err (ESeq α) :=
  Except.ok (pipeTr act src)

/-- Source: `cast(type)`: `type = toStringSafe(type).trim()` (total), then
`return this.select(<coercion lambda>)`.  The coercion switch calls
external builtins (`parseFloat`, `JSON.parse`, `Symbol`), so the
per-element coercion — including the `throw "Not supported type"` default
branch — is taken as a parameter; construction behaviour is proved for
every coercion function, which subsumes the actual one. -/
def castBuild {α β : Type} (coerce : String → α → Except Err β) (type : String)
    (src : ESeq α) : Except Err (ESeq β) :=
  selectBuild (fun x => coerce (type.trim) x) src

/-- The numeric map operators (`abs`, `ceil`, `floor`, `round`, the trig
family, `pow`, `root`, `log`, `sqrt`, `exp`) are all
`return this.select(x => invokeForValidNumber(x, <math fn>, handleAsInt))`
with a total per-element function (`invokeForValidNumber` coerces and
passes NaN through instead of throwing). -/
def numericMapBuild {α : Type} (f : α → α) (src : ESeq α) : Except Err (ESeq α) :=
  selectBuild (fun x => Except.ok (f x)) src

/-! ### JavaScript value fragment

A fragment of the JavaScript value domain sufficient to distinguish loose
equality `==` from strict equality `===`: integers (JS numbers restricted
to integers) and strings. -/

/-- JS values: numbers (restricted to integers) and strings. -/
inductive JSVal : Type where
  | num (n : Int) : JSVal
  | str (s : String) : JSVal
deriving DecidableEq, Repr

/-- The numeric value of a digit character, if it is one. -/
def digitVal (c : Char) : Option Nat :=
  if c.isDigit then some (c.toNat - 48) else none

/-- Parse a non-empty all-digit character list as a natural number. -/
def parseDigitsAux : Nat → List Char → Option Nat
  | acc, [] => some acc
  | acc, c :: cs =>
    match digitVal c with
    | none => none
    | some d => parseDigitsAux (acc * 10 + d) cs

/-- Parse digits (none when the list is empty or has a non-digit). -/
def parseDigits : List Char → Option Nat
  | [] => none
  | cs => parseDigitsAux 0 cs

/-- Parse an optionally signed integer literal. -/
def parseIntChars : List Char → Option Int
  | [] => none
  | c :: cs =>
    if c = '-' then (parseDigits cs).map (fun n => -(n : Int))
    else if c = '+' then (parseDigits cs).map (fun n => (n : Int))
    else (parseDigits (c :: cs)).map (fun n => (n : Int))

/-- Strip leading and trailing whitespace. -/
def jsTrim (cs : List Char) : List Char :=
  ((cs.dropWhile Char.isWhitespace).reverse.dropWhile Char.isWhitespace).reverse

/-- Source: `ToNumber` on a string, for the integer fragment: a whitespace-only
string is 0, a (signed) integer literal is its value, anything else is
NaN (modelled as `none`). -/
def jsStringToNumber (s : String) : Option Int :=
  let t := jsTrim s.data
  if t = [] then some 0 else parseIntChars t

/-- JavaScript loose equality `==` on the fragment: numbers and strings
compare by converting the string to a number. -/
def jsLooseEq : JSVal → JSVal → Bool
  | JSVal.num a, JSVal.num b => decide (a = b)
  | JSVal.str a, JSVal.str b => decide (a = b)
  | JSVal.num a, JSVal.str s => decide (jsStringToNumber s = some a)
  | JSVal.str s, JSVal.num a => decide (jsStringToNumber s = some a)

/-- JavaScript strict equality `===` on the fragment: same type and same
value. -/
def jsStrictEq (x y : JSVal) : Bool :=
  decide (x = y)

/-! ### Plain list model of the operators (error-free runs) -/

/-- Generator `_distinctByInner`: `temp` is the buffer of already seen
keys; a new element is yielded (and its key buffered) only when no
buffered key compares equal to its key (linear scan). -/
def distinctByInner {T K : Type} (selector : T → K) (comparer : K → K → Bool)
    (temp : List K) : List T → List T
  | [] => []
  | x :: xs =>
    let keyItem := selector x
    if temp.any (fun t => comparer keyItem t) then
      distinctByInner selector comparer temp xs
    else
      x :: distinctByInner selector comparer (temp ++ [keyItem]) xs

/-- Source: `distinct(comparer)` is `distinctBy(x => x, comparer)` with an
initially empty buffer. -/
def distinctList {α : Type} (comparer : α → α → Bool) (l : List α) : List α :=
  distinctByInner (fun x => x) comparer [] l

/-- Specification-side first-occurrence deduplication: keep each element
and drop the later elements that compare equal to it. -/
def dedupFirstBy {α : Type} (comparer : α → α → Bool) : List α → List α
  | [] => []
  | x :: xs => x :: dedupFirstBy comparer (xs.filter (fun y => ! comparer y x))
termination_by l => l.length
decreasing_by
  exact Nat.lt_succ_of_le (List.length_filter_le _ _)

/-- Generator `_intersectInner` on plain lists: yield an element of the
first sequence when some element of the (materialised) second array
compares equal to it (inner loop with break on first hit). -/
def intersectInner {α : Type} (second : List α) (comparer : α → α → Bool) :
    List α → List α
  | [] => []
  | x :: xs =>
    if second.any (fun s => comparer x s) then
      x :: intersectInner second comparer xs
    else intersectInner second comparer xs

/-- Source: `intersect(second, comparer)`: the second sequence is materialised
through `from(second).distinct().toArray()` — deduplicated with the
DEFAULT comparer (`distinct()` is called with no argument), whatever
`comparer` was supplied — and then the first sequence is filtered with
the normalised `comparer`. -/
def intersectList {α : Type} (looseEq strictEq : α → α → Bool)
    (cmpArg : EqComparerArg α) (first second : List α) : List α :=
  intersectInner (distinctList looseEq second)
    (toEqualityComparerSafe looseEq strictEq cmpArg) first

/-- Generator `zipInner` on plain lists: lock-step pull from both lists,
stop at the first exhausted one, pass the zero-based pair index to the
combiner. -/
def zipInner {α β γ : Type} (resultSelector : α → β → Nat → γ) (i : Nat) :
    List α → List β → List γ
  | [], _ => []
  | _ :: _, [] => []
  | x :: xs, y :: ys => resultSelector x y i :: zipInner resultSelector (i + 1) xs ys

/-- Source: `zip(second, resultSelector)`: a missing selector defaults to
`(x, y) => x + y`; the pair index starts at 0. -/
def zipList {α : Type} [Add α] (resultSelector : Option (α → α → Nat → α))
    (first second : List α) : List α :=
  zipInner (resultSelector.getD (fun x y _ => x + y)) 0 first second

/-- Source: `take(count)` on plain lists: `takeWhile(() => count-- > 0)` — the
element is pulled, then the counter predicate decides whether to yield it
or break. -/
def takeCounter {α : Type} (count : Int) : List α → List α
  | [] => []
  | x :: xs => if count > 0 then x :: takeCounter (count - 1) xs else []

/-- Source: `skip(count)` on plain lists: `skipWhile(() => count-- > 0)` — drop
while the counter predicate holds, then yield everything (the predicate
is no longer consulted). -/
def skipCounter {α : Type} (count : Int) : List α → List α
  | [] => []
  | x :: xs => if count > 0 then skipCounter (count - 1) xs else x :: xs

/-- Generator `rangeInner(start, count)` for a defined (non-NaN) count:
yield `count` consecutive values starting at `start`. -/
def rangeInner (start : Int) : Nat → List Int
  | 0 => []
  | n + 1 => start :: rangeInner (start + 1) n

/-! ### Terminal aggregation operators -/

/-- Result of an aggregation that signals emptiness with the distinguished
`IS_EMPTY` marker symbol instead of throwing. -/
inductive EmptyOr (α : Type) where
  | empty : EmptyOr α
  | val (a : α) : EmptyOr α
deriving DecidableEq, Repr

/-- Source: `aggregate(func, seed)`: left fold over the sequence. -/
def aggregate {α β : Type} (func : β → α → β) (seed : β) (l : List α) : β :=
  l.foldl func seed

/-- Source: `sum()`: `aggregate((acc, x) => IS_EMPTY !== acc ? acc + x : x, IS_EMPTY)`. -/
def sumList {α : Type} [Add α] (l : List α) : EmptyOr α :=
  aggregate
    (fun acc x =>
      match acc with
      | EmptyOr.empty => EmptyOr.val x
      | EmptyOr.val a => EmptyOr.val (a + x))
    EmptyOr.empty l

/-- Source: `average()`: count the elements and total their numeric values, then
return `sum / count`, or the `IS_EMPTY` marker when nothing was counted.
Elements are modelled as rationals (the numeric-coercion path for
non-number elements is outside this model). -/
def averageList (l : List Rat) : EmptyOr Rat :=
  let count : Nat := l.length
  let total : Rat := l.foldl (fun acc n => acc + n) 0
  if count > 0 then EmptyOr.val (total / (count : Rat)) else EmptyOr.empty

/-- The fold of `min()`: the first element initialises the running result
unconditionally; later elements replace it when the comparer says their
value is smaller. -/
def minAux {T V : Type} (valueSelector : T → V) (comparer : V → V → Int) :
    T → V → List T → T
  | result, _, [] => result
  | result, minValue, x :: xs =>
    let v := valueSelector x
    if comparer v minValue < 0 then minAux valueSelector comparer x v xs
    else minAux valueSelector comparer result minValue xs

/-- Source: `min(valueSelector, comparer)`: result starts as the `IS_EMPTY`
marker and becomes the first element on the first iteration. -/
def minList {T V : Type} (valueSelector : T → V) (comparer : V → V → Int) :
    List T → EmptyOr T
  | [] => EmptyOr.empty
  | x :: xs => EmptyOr.val (minAux valueSelector comparer x (valueSelector x) xs)

/-- The fold of `max()`: like `min` with the comparison reversed. -/
def maxAux {T V : Type} (valueSelector : T → V) (comparer : V → V → Int) :
    T → V → List T → T
  | result, _, [] => result
  | result, maxValue, x :: xs =>
    let v := valueSelector x
    if comparer v maxValue > 0 then maxAux valueSelector comparer x v xs
    else maxAux valueSelector comparer result maxValue xs

/-- Source: `max(valueSelector, comparer)`. -/
def maxList {T V : Type} (valueSelector : T → V) (comparer : V → V → Int) :
    List T → EmptyOr T
  | [] => EmptyOr.empty
  | x :: xs => EmptyOr.val (maxAux valueSelector comparer x (valueSelector x) xs)

/-! ### forAll and its error wrappers -/

/-- Source: `FunctionError`: wraps one per-element action failure with the inner
error, the failing function and the zero-based index. -/
structure FunctionError (α : Type) : Type where
  innerError : Err
  func : α → Nat → Except Err Unit
  index : Nat

/-- Source: `AggregateError`: the list of collected failures.  (The source
constructor filters out null entries; `FunctionError` instances are never
null, so the filter is the identity here.) -/
structure AggregateErrors (α : Type) : Type where
  errors : List (FunctionError α)

/-- The collecting loop of `forAll`: run the action on every element with
its zero-based index, continuing past failures and wrapping each one. -/
def forAllErrors {α : Type} (action : α → Nat → Except Err Unit) (i : Nat) :
    List α → List (FunctionError α)
  | [] => []
  | x :: xs =>
    match action x i with
    | Except.ok _ => forAllErrors action (i + 1) xs
    | Except.error e =>
      { innerError := e, func := action, index := i } :: forAllErrors action (i + 1) xs

/-- Source: `forAll(action)`: traverse everything, then throw one aggregate error
if any action failed, else return normally. -/
def forAll {α : Type} (action : α → Nat → Except Err Unit) (l : List α) :
    Except (AggregateErrors α) Unit :=
  let errs := forAllErrors action 0 l
  if errs.length > 0 then Except.error { errors := errs } else Except.ok ()

/-! ### single / singleOrDefault -/

/-- The exact message of the ambiguous-match throw (source spelling). -/
def ambiguousMatchMsg : Err := "Sequence contains more that one matching element"

/-- The exact message of the element-not-found throw. -/
def notFoundMsg : Err := "Element not found"

/-- Source: `toPredicateSafe`: a missing predicate becomes the constantly true
predicate. -/
def toPredicateSafe {α : Type} (p : Option (α → Bool)) : α → Bool :=
  match p with
  | some f => f
  | none => fun _ => true

/-- A default value for the OrDefault operators: either the distinguished
`NOT_FOUND` marker symbol (argument omitted) or a caller-supplied value. -/
inductive DefaultVal (δ : Type) where
  | notFoundMarker : DefaultVal δ
  | user (d : δ) : DefaultVal δ
deriving DecidableEq, Repr

/-- The four call shapes of `xOrDefault(predicateOrDefaultValue?,
defaultValue?)` (JavaScript distinguishes them by argument count and by
`typeof predicateOrDefaultValue === "function"`). -/
inductive OrDefaultCall (α δ : Type) where
  | noArgs : OrDefaultCall α δ
  | predOnly (p : α → Bool) : OrDefaultCall α δ
  | defaultOnly (d : δ) : OrDefaultCall α δ
  | predAndDefault (p : α → Bool) (d : δ) : OrDefaultCall α δ

/-- Source: `getOrDefaultArguments`: normalise the call shape into a total
predicate and a default value (the `NOT_FOUND` marker when omitted). -/
def getOrDefaultArguments {α δ : Type} :
    OrDefaultCall α δ → (α → Bool) × DefaultVal δ
  | OrDefaultCall.noArgs => (toPredicateSafe none, DefaultVal.notFoundMarker)
  | OrDefaultCall.predOnly p => (toPredicateSafe (some p), DefaultVal.notFoundMarker)
  | OrDefaultCall.defaultOnly d => (toPredicateSafe none, DefaultVal.user d)
  | OrDefaultCall.predAndDefault p d => (toPredicateSafe (some p), DefaultVal.user d)

/-- The loop of `singleOrDefault`: skip non-matching elements; a second
match throws the ambiguous-match error; otherwise remember the match.
`none` plays the role of the fresh `ELEMENT_NOT_FOUND` sentinel symbol. -/
def singleLoop {α : Type} (predicate : α → Bool) :
    Option α → List α → Except Err (Option α)
  | result, [] => Except.ok result
  | result, x :: xs =>
    if predicate x then
      match result with
      | some _ => Except.error ambiguousMatchMsg
      | none => singleLoop predicate (some x) xs
    else singleLoop predicate result xs

/-- Source: `singleOrDefault(...)`: run the loop; an untouched sentinel means the
normalised default value is returned (`Sum.inr`), otherwise the unique
match (`Sum.inl`). -/
def singleOrDefault {α δ : Type} (call : OrDefaultCall α δ) (l : List α) :
    Except Err (Sum α (DefaultVal δ)) :=
  let args := getOrDefaultArguments call
  match singleLoop args.1 none l with
  | Except.error e => Except.error e
  | Except.ok (some x) => Except.ok (Sum.inl x)
  | Except.ok none => Except.ok (Sum.inr args.2)

/-- Source: `single(predicate)`: `singleOrDefault(predicate, ELEMENT_NOT_FOUND)`
with a fresh sentinel symbol; getting the sentinel back throws the
element-not-found error. -/
def single {α : Type} (predicate : α → Bool) (l : List α) : Except Err α :=
  match singleLoop (toPredicateSafe (some predicate)) none l with
  | Except.error e => Except.error e
  | Except.ok (some x) => Except.ok x
  | Except.ok none => Except.error notFoundMsg

/-! ### The sequence state machines (`ArrayEnumerable`, `IteratorEnumerable`)

The iterator protocol is modelled with explicit state passing: `next`
returns the pulled value (`none` meaning the done signal, which in both
implementations coincides with the absence of a value) and the updated
state.  The `_current` bookkeeping field is observationally the last
returned result and is not duplicated in the state. -/

/-- Source: `ArrayEnumerable`: an array plus the current index, `-1` before the
first pull. -/
structure ArrayEnumerable (α : Type) : Type where
  arr : List α
  index : Int

/-- Source: `ArrayEnumerable.canReset` is `true`. -/
def ArrayEnumerable.canReset {α : Type} (_ : ArrayEnumerable α) : Bool := true

/-- Source: `ArrayEnumerable.next`: when `index + 1` reaches the array length,
signal done and leave the index unchanged; otherwise advance the index
and yield the element there. -/
def ArrayEnumerable.next {α : Type} (s : ArrayEnumerable α) :
    Option α × ArrayEnumerable α :=
  let nextIndex := s.index + 1
  if nextIndex ≥ (s.arr.length : Int) then (none, s)
  else (s.arr.get? nextIndex.toNat, { s with index := nextIndex })

/-- Source: `ArrayEnumerable.reset`: `canReset` holds, so set the index back to
`-1`. -/
def ArrayEnumerable.reset {α : Type} (s : ArrayEnumerable α) : ArrayEnumerable α :=
  if s.canReset then { s with index := -1 } else s

/-- Consume up to `fuel` elements by repeated pulls (the for-of loop of a
consumer). -/
def ArrayEnumerable.collect {α : Type} : ArrayEnumerable α → Nat → List α
  | _, 0 => []
  | s, fuel + 1 =>
    match s.next with
    | (some x, s2) => x :: ArrayEnumerable.collect s2 fuel
    | (none, _) => []

/-- Source: `IteratorEnumerable`: wraps an inner iterator.  The library feeds it
JavaScript generators, whose protocol guarantees that after the first
done result every further `next()` is done again; such a generator is
modelled by its list of remaining items. -/
structure IteratorEnumerable (α : Type) : Type where
  gen : List α
  index : Int

/-- Source: `IteratorEnumerable.next`: pull the inner generator; a value advances
the index, a done result leaves the state unchanged. -/
def IteratorEnumerable.next {α : Type} (s : IteratorEnumerable α) :
    Option α × IteratorEnumerable α :=
  match s.gen with
  | [] => (none, s)
  | x :: xs => (some x, { gen := xs, index := s.index + 1 })

/-- The result of the `(n + 1)`-th pull starting from state `s`. -/
def IteratorEnumerable.pullN {α : Type} :
    IteratorEnumerable α → Nat → Option α × IteratorEnumerable α
  | s, 0 => s.next
  | s, n + 1 => (s.next).2.pullN n

/-! ### Ordering subsystem -/

/-- The default comparer built by `toComparerSafe` when none is given:
`x === y ? 0 : (x < y ? -1 : (x > y ? 1 : 0))`, modelled on a linearly
ordered key domain. -/
def comparerDefault {α : Type} [LinearOrder α] (x y : α) : Int :=
  if x = y then 0 else if x < y then -1 else if x > y then 1 else 0

/-- Source: `toComparerSafe(comparer)`: a present comparer is used as given, a
missing one becomes the natural three-way comparer of the key domain
(which is `comparerDefault` on an ordered domain). -/
def toComparerSafe {α : Type} (cmp : Option (α → α → Int))
    (naturalCmp : α → α → Int) : α → α → Int :=
  match cmp with
  | some c => c
  | none => naturalCmp

/-- The body of the `OrderedEnumerable` constructor: snapshot the source
into an array, decorate each element with its sort key, sort the
decorated array (JavaScript `Array.prototype.sort` is required to be
stable, modelled by `List.mergeSort` with the comparator-induced
less-or-equal test), and strip the decoration. -/
def orderByList {T U : Type} (sel : T → U) (cmp : U → U → Int) (items : List T) :
    List T :=
  ((items.map (fun x => (sel x, x))).mergeSort
    (fun a b => decide (cmp a.1 b.1 ≤ 0))).map Prod.snd

/-- Source: `OrderedEnumerable`: the original snapshot, the active key selector
and key comparer, and the sorted contents of the wrapped sequence. -/
structure OrderedEnumerable (T U : Type) : Type where
  originalItems : List T
  orderSelector : T → U
  orderComparer : U → U → Int
  sequenceItems : List T

/-- Source: `orderBy(selector, comparer)` = `new OrderedEnumerable(this, selector,
comparer)`: normalise the comparer, snapshot, sort. -/
def orderBy {T U : Type} [LinearOrder U] (items : List T) (sel : T → U)
    (cmp : Option (U → U → Int)) : OrderedEnumerable T U :=
  let c := toComparerSafe cmp comparerDefault
  { originalItems := items
    orderSelector := sel
    orderComparer := c
    sequenceItems := orderByList sel c items }

/-- Source: `toArray()` on an ordered sequence yields the sorted snapshot. -/
def OrderedEnumerable.toArray {T U : Type} (o : OrderedEnumerable T U) : List T :=
  o.sequenceItems

/-- The composite comparer `thenBy` builds: compare the previous keys
first and fall back to the new keys only on a tie, returning 0 only when
both levels tie. -/
def thenByComparer {U V : Type} (cmp0 : U → U → Int) (cmp1 : V → V → Int)
    (x y : U × V) : Int :=
  let comp0 := cmp0 x.1 y.1
  if comp0 ≠ 0 then comp0
  else
    let comp1 := cmp1 x.2 y.2
    if comp1 ≠ 0 then comp1 else 0

/-- Source: `thenBy(selector, comparer)`:
`from(this._originalItems).orderBy(x => ({level_0: previousSelector(x), level_1: selector(x)}), compositeComparer)`
— a fresh ordering re-derived from the original snapshot with the
composite key and composite comparer (the `OrderedEnumerable`
constructor applied to a present function comparer stores it as given). -/
def OrderedEnumerable.thenBy {T U V : Type} [LinearOrder V]
    (o : OrderedEnumerable T U) (sel : T → V) (cmp : Option (V → V → Int)) :
    OrderedEnumerable T (U × V) :=
  let c := toComparerSafe cmp comparerDefault
  let compositeSel := fun x => (o.orderSelector x, sel x)
  let compositeCmp := thenByComparer o.orderComparer c
  { originalItems := o.originalItems
    orderSelector := compositeSel
    orderComparer := compositeCmp
    sequenceItems := orderByList compositeSel compositeCmp o.originalItems }

/-! ## Helper lemmas -/

theorem takeCounter_append_skipCounter {α : Type} (c : Int) (l : List α) :
    takeCounter c l ++ skipCounter c l = l := by
  induction l generalizing c with
  | nil => simp [takeCounter, skipCounter]
  | cons x xs ih =>
    by_cases h : c > 0
    · simp [takeCounter, skipCounter, h, ih]
    · simp [takeCounter, skipCounter, h]

theorem zipInner_eq_enumFrom {α β γ : Type} (f : α → β → Nat → γ) (i : Nat)
    (xs : List α) (ys : List β) :
    zipInner f i xs ys
      = ((xs.zip ys).enumFrom i).map (fun p => f p.2.1 p.2.2 p.1) := by
  induction xs generalizing i ys with
  | nil => simp [zipInner]
  | cons x xs ih =>
    cases ys with
    | nil => simp [zipInner]
    | cons y ys => simp [zipInner, List.enumFrom, ih, List.zip]

theorem sumList_foldl_val {α : Type} [Add α] (l : List α) (a : α) :
    l.foldl
      (fun acc x =>
        match acc with
        | EmptyOr.empty => EmptyOr.val x
        | EmptyOr.val a => EmptyOr.val (a + x))
      (EmptyOr.val a) ≠ EmptyOr.empty := by
  induction l generalizing a with
  | nil => simp
  | cons x xs ih => simpa using ih (a + x)

theorem forAllErrors_eq_filterMap {α : Type} (act : α → Nat → Except Err Unit)
    (i : Nat) (l : List α) :
    forAllErrors act i l
      = (l.enumFrom i).filterMap (fun p =>
          match act p.2 p.1 with
          | Except.ok _ => none
          | Except.error e => some { innerError := e, func := act, index := p.1 }) := by
  induction l generalizing i with
  | nil => simp [forAllErrors]
  | cons x xs ih =>
    simp only [forAllErrors, List.enumFrom, List.filterMap_cons]
    cases act x i with
    | ok v => simp [ih]
    | error e => simp [ih]

/-! ## Claim theorems -/

/-- C8: for every integer n with 0 <= n <= 10, the concatenation of
`take(n).toArray()` and `skip(n).toArray()` over `range(0, 10)` equals
the original ten elements in order — a partition with no overlap and no
gaps. -/
theorem take_skip_partition_range (n : Int) (h0 : 0 ≤ n) (h10 : n ≤ 10) :
    takeCounter n (rangeInner 0 10) ++ skipCounter n (rangeInner 0 10)
      = rangeInner 0 10 :=
  takeCounter_append_skipCounter n (rangeInner 0 10)

theorem take_skip_partition_range_witness :
    takeCounter 3 (rangeInner 0 10) ++ skipCounter 3 (rangeInner 0 10)
      = rangeInner 0 10 :=
  take_skip_partition_range 3 (by decide) (by decide)

/-- C7: `zip` pulls both sequences in lock-step, stops as soon as either
is exhausted (its output is the zipped common prefix, so its length is
the minimum of the input lengths), and passes the zero-based pair index
as third argument to the combiner; zipping `[1,2,3]` with `[1,2]` with
the default summing combiner yields `[2,4]`. -/
theorem zip_lockstep {α β γ : Type} (f : α → β → Nat → γ) (xs : List α)
    (ys : List β) :
    (zipInner f 0 xs ys = ((xs.zip ys).enum).map (fun p => f p.2.1 p.2.2 p.1))
    ∧ (zipInner f 0 xs ys).length = min xs.length ys.length
    ∧ zipList none [1, 2, 3] [1, 2] = ([2, 4] : List Int) := by
  refine ⟨zipInner_eq_enumFrom f 0 xs ys, ?_, by decide⟩
  rw [zipInner_eq_enumFrom f 0 xs ys]
  simp [List.enum]

/-- C3: on an empty sequence, `average()`, `sum()`, `min()` and `max()`
each return the distinguished `IS_EMPTY` marker (the model is total, so
none of them throws, and the marker is distinct from the value 0); on a
non-empty sequence none of them returns the marker. -/
theorem empty_marker_aggregates {α β : Type} [LinearOrder α] [Add β] :
    (averageList [] = EmptyOr.empty)
    ∧ (sumList ([] : List β) = EmptyOr.empty)
    ∧ (minList (fun i => i) comparerDefault ([] : List α) = EmptyOr.empty)
    ∧ (maxList (fun i => i) comparerDefault ([] : List α) = EmptyOr.empty)
    ∧ (EmptyOr.empty ≠ EmptyOr.val (0 : Rat))
    ∧ (∀ l : List Rat, l ≠ [] → averageList l ≠ EmptyOr.empty)
    ∧ (∀ l : List β, l ≠ [] → sumList l ≠ EmptyOr.empty)
    ∧ (∀ l : List α, l ≠ [] →
        minList (fun i => i) comparerDefault l ≠ EmptyOr.empty
        ∧ maxList (fun i => i) comparerDefault l ≠ EmptyOr.empty) := by
  refine ⟨rfl, rfl, rfl, rfl, by simp, ?_, ?_, ?_⟩
  · intro l hl
    cases l with
    | nil => exact absurd rfl hl
    | cons x xs => simp [averageList]
  · intro l hl
    cases l with
    | nil => exact absurd rfl hl
    | cons x xs =>
      simp only [sumList, aggregate, List.foldl_cons]
      exact sumList_foldl_val xs x
  · intro l hl
    cases l with
    | nil => exact absurd rfl hl
    | cons x xs => exact ⟨by simp [minList], by simp [maxList]⟩

theorem empty_marker_aggregates_witness :
    (averageList [1] ≠ EmptyOr.empty)
    ∧ (sumList [(1 : Rat)] ≠ EmptyOr.empty)
    ∧ (minList (fun i => i) comparerDefault [(1 : Rat)] ≠ EmptyOr.empty) := by
  refine ⟨?_, ?_, ?_⟩
  · exact (empty_marker_aggregates (α := Rat) (β := Rat)).2.2.2.2.2.1 [1] (by simp)
  · exact (empty_marker_aggregates (α := Rat) (β := Rat)).2.2.2.2.2.2.1 [1] (by simp)
  · exact ((empty_marker_aggregates (α := Rat) (β := Rat)).2.2.2.2.2.2.2 [1] (by simp)).1

/-- C4: `forAll` traverses the whole sequence even when actions throw;
each failure is wrapped in a `FunctionError` carrying the inner error,
the failing action and the zero-based element index; after full traversal
it throws a single `AggregateError` whose error list has exactly one
entry per failing action (in traversal order, none dropped); with no
failures it returns normally.  All of this is captured by the equation
with the enumerated-filterMap of the failures. -/
theorem forAll_collects_all_failures {α : Type} (act : α → Nat → Except Err Unit)
    (l : List α) :
    forAll act l
      = (let failures := (l.enum).filterMap (fun p =>
            match act p.2 p.1 with
            | Except.ok _ => none
            | Except.error e => some { innerError := e, func := act, index := p.1 });
          if failures.length > 0 then Except.error { errors := failures }
          else Except.ok ()) := by
  simp only [forAll, List.enum, forAllErrors_eq_filterMap]

theorem singleLoop_no_match {α : Type} (p : α → Bool) (l : List α)
    (res : Option α) (h : l.filter p = []) : singleLoop p res l = Except.ok res := by
  induction l with
  | nil => rfl
  | cons x xs ih =>
    by_cases hx : p x
    · simp [hx] at h
    · simp only [List.filter_cons, hx] at h
      simp [singleLoop, hx, ih h]

theorem singleLoop_one_match {α : Type} (p : α → Bool) (l : List α) (x : α)
    (h : l.filter p = [x]) : singleLoop p none l = Except.ok (some x) := by
  induction l with
  | nil => simp at h
  | cons y ys ih =>
    by_cases hy : p y
    · simp only [List.filter_cons, hy, if_pos, List.cons_eq_cons] at h
      obtain ⟨hy2, hrest⟩ := h
      subst hy2
      simp [singleLoop, hy, singleLoop_no_match p ys (some y) hrest]
    · simp only [List.filter_cons, hy] at h
      simp [singleLoop, hy, ih h]

theorem singleLoop_some_more_match {α : Type} (p : α → Bool) (l : List α) (a : α)
    (h : l.filter p ≠ []) : singleLoop p (some a) l = Except.error ambiguousMatchMsg := by
  induction l with
  | nil => simp at h
  | cons y ys ih =>
    by_cases hy : p y
    · simp [singleLoop, hy]
    · simp only [List.filter_cons, hy] at h
      simp [singleLoop, hy, ih (by simpa using h)]

theorem singleLoop_two_matches {α : Type} (p : α → Bool) (l : List α)
    (h : 2 ≤ (l.filter p).length) : singleLoop p none l = Except.error ambiguousMatchMsg := by
  induction l with
  | nil => simp at h
  | cons y ys ih =>
    by_cases hy : p y
    · simp only [List.filter_cons, hy, if_pos, List.length_cons] at h
      have hne : ys.filter p ≠ [] := by
        intro hnil
        rw [hnil] at h
        simp at h
      simp [singleLoop, hy, singleLoop_some_more_match p ys y hne]
    · simp only [List.filter_cons, hy] at h
      simp [singleLoop, hy, ih h]

/-- C5: with more than one matching element, `single` and
`singleOrDefault` both throw the ambiguous-match error — `singleOrDefault`
even when a default value was explicitly supplied; with exactly one match
they return it; with zero matches `single` throws the element-not-found
error while `singleOrDefault` returns the supplied default, or the
`NOT_FOUND` marker when the default was omitted. -/
theorem single_ambiguous_and_defaults {α δ : Type} (p : α → Bool) (l : List α)
    (d : δ) :
    (2 ≤ (l.filter p).length →
      single p l = Except.error ambiguousMatchMsg
      ∧ singleOrDefault (OrDefaultCall.predAndDefault p d) l
          = Except.error ambiguousMatchMsg)
    ∧ (∀ x, l.filter p = [x] →
      single p l = Except.ok x
      ∧ singleOrDefault (OrDefaultCall.predAndDefault p d) l = Except.ok (Sum.inl x))
    ∧ (l.filter p = [] →
      single p l = Except.error notFoundMsg
      ∧ singleOrDefault (OrDefaultCall.predAndDefault p d) l
          = Except.ok (Sum.inr (DefaultVal.user d))
      ∧ singleOrDefault (δ := δ) (OrDefaultCall.predOnly p) l
          = Except.ok (Sum.inr DefaultVal.notFoundMarker)) := by
  refine ⟨?_, ?_, ?_⟩
  · intro h
    constructor
    · simp [single, toPredicateSafe, singleLoop_two_matches p l h]
    · simp [singleOrDefault, getOrDefaultArguments, toPredicateSafe,
        singleLoop_two_matches p l h]
  · intro x h
    constructor
    · simp [single, toPredicateSafe, singleLoop_one_match p l x h]
    · simp [singleOrDefault, getOrDefaultArguments, toPredicateSafe,
        singleLoop_one_match p l x h]
  · intro h
    refine ⟨?_, ?_, ?_⟩
    · simp [single, toPredicateSafe, singleLoop_no_match p l none h]
    · simp [singleOrDefault, getOrDefaultArguments, toPredicateSafe,
        singleLoop_no_match p l none h]
    · simp [singleOrDefault, getOrDefaultArguments, toPredicateSafe,
        singleLoop_no_match p l none h]

theorem single_ambiguous_and_defaults_witness :
    (single (fun x : Int => decide (1 < x)) [1, 2, 3] = Except.error ambiguousMatchMsg
      ∧ singleOrDefault
          (OrDefaultCall.predAndDefault (fun x : Int => decide (1 < x)) (0 : Int))
          [1, 2, 3] = Except.error ambiguousMatchMsg)
    ∧ (single (fun x : Int => decide (2 < x)) [1, 2, 3] = Except.ok 3
      ∧ singleOrDefault
          (OrDefaultCall.predAndDefault (fun x : Int => decide (2 < x)) (0 : Int))
          [1, 2, 3] = Except.ok (Sum.inl 3)) := by
  constructor
  · exact (single_ambiguous_and_defaults (fun x : Int => decide (1 < x)) [1, 2, 3]
      (0 : Int)).1 (by decide)
  · exact (single_ambiguous_and_defaults (fun x : Int => decide (2 < x)) [1, 2, 3]
      (0 : Int)).2.1 3 (by decide)

theorem distinctByInner_sublist {α : Type} (cmp : α → α → Bool) (temp : List α)
    (l : List α) : (distinctByInner (fun x => x) cmp temp l).Sublist l := by
  induction l generalizing temp with
  | nil => simp [distinctByInner]
  | cons y ys ih =>
    by_cases h : temp.any (fun t => cmp y t) = true
    · simp only [distinctByInner, h, if_true]
      exact (ih temp).cons y
    · simp only [distinctByInner, h, if_false, Bool.false_eq_true]
      exact (ih (temp ++ [y])).cons₂ y

theorem distinctByInner_not_in_temp {α : Type} (cmp : α → α → Bool) (temp : List α)
    (l : List α) (x : α) (hx : x ∈ distinctByInner (fun x => x) cmp temp l) :
    temp.any (fun t => cmp x t) = false := by
  induction l generalizing temp with
  | nil => simp [distinctByInner] at hx
  | cons y ys ih =>
    by_cases h : temp.any (fun t => cmp y t) = true
    · simp only [distinctByInner, h, if_true] at hx
      exact ih temp hx
    · simp only [distinctByInner, h, if_false, Bool.false_eq_true, List.mem_cons] at hx
      cases hx with
      | inl hxy =>
        subst hxy
        simpa using h
      | inr hxr =>
        have := ih (temp ++ [y]) hxr
        simp only [List.any_append, Bool.or_eq_false_iff] at this
        exact this.1

theorem distinctByInner_pairwise {α : Type} (cmp : α → α → Bool) (temp : List α)
    (l : List α) :
    (distinctByInner (fun x => x) cmp temp l).Pairwise (fun a b => cmp b a = false) := by
  induction l generalizing temp with
  | nil => simp [distinctByInner]
  | cons y ys ih =>
    by_cases h : temp.any (fun t => cmp y t) = true
    · simp only [distinctByInner, h, if_true]
      exact ih temp
    · simp only [distinctByInner, h, if_false, Bool.false_eq_true]
      refine List.Pairwise.cons ?_ (ih (temp ++ [y]))
      intro b hb
      have := distinctByInner_not_in_temp cmp (temp ++ [y]) ys b hb
      simp only [List.any_append, Bool.or_eq_false_iff] at this
      simpa using this.2

theorem distinctByInner_covers {α : Type} (cmp : α → α → Bool) (temp : List α)
    (l : List α) (x : α) (hx : x ∈ l) (ht : temp.any (fun t => cmp x t) = false) :
    ∃ y ∈ distinctByInner (fun x => x) cmp temp l, x = y ∨ cmp x y = true := by
  induction l generalizing temp with
  | nil => simp at hx
  | cons y ys ih =>
    by_cases h : temp.any (fun t => cmp y t) = true
    · simp only [distinctByInner, h, if_true]
      rcases List.mem_cons.mp hx with hxy | hxr
      · subst hxy
        exact absurd h (by simp [ht])
      · exact ih temp hxr ht
    · simp only [distinctByInner, h, if_false, Bool.false_eq_true]
      rcases List.mem_cons.mp hx with hxy | hxr
      · exact ⟨y, by simp, Or.inl hxy⟩
      · by_cases hcx : cmp x y = true
        · exact ⟨y, by simp, Or.inr hcx⟩
        · have ht2 : (temp ++ [y]).any (fun t => cmp x t) = false := by
            simp only [List.any_append, Bool.or_eq_false_iff]
            exact ⟨ht, by simpa using hcx⟩
          obtain ⟨z, hz, hxz⟩ := ih (temp ++ [y]) hxr ht2
          exact ⟨z, List.mem_cons_of_mem y hz, hxz⟩

theorem distinctByInner_eq_dedupFirstBy {α : Type} (cmp : α → α → Bool)
    (l : List α) (temp : List α) :
    distinctByInner (fun x => x) cmp temp l
      = dedupFirstBy cmp (l.filter (fun y => ! temp.any (fun t => cmp y t))) := by
  induction l generalizing temp with
  | nil => simp [distinctByInner, dedupFirstBy]
  | cons y ys ih =>
    by_cases h : temp.any (fun t => cmp y t) = true
    · simp only [distinctByInner, h, if_true, List.filter_cons, Bool.not_true,
        Bool.false_eq_true, if_false]
      exact ih temp
    · have hfalse : (temp.any fun t => cmp y t) = false := by simpa using h
      have h1 : distinctByInner (fun x => x) cmp temp (y :: ys)
          = y :: distinctByInner (fun x => x) cmp (temp ++ [y]) ys := by
        simp [distinctByInner, hfalse]
      have h2 : (y :: ys).filter (fun z => ! temp.any (fun t => cmp z t))
          = y :: ys.filter (fun z => ! temp.any (fun t => cmp z t)) := by
        simp [List.filter_cons, hfalse]
      have h3 : List.filter (fun z => ! (temp ++ [y]).any fun t => cmp z t) ys
          = List.filter (fun a => (! cmp a y) && (! temp.any fun t => cmp a t)) ys := by
        apply List.filter_congr
        intro z hz
        simp [List.any_append, Bool.not_or, Bool.and_comm]
      rw [h1, h2, dedupFirstBy, ih (temp ++ [y]), List.filter_filter, h3]

theorem jsLooseEq_symm (a b : JSVal) : jsLooseEq a b = jsLooseEq b a := by
  cases a <;> cases b <;> simp [jsLooseEq, eq_comm]

/-- C6: `distinct()` output contains no two elements satisfying the
equality comparer; every value of the source appears exactly once, at its
first occurrence and in first-occurrence order (the output equals the
first-occurrence deduplication of the source and is a sublist of it, and
every source element has a representative in the output); the default
comparer is loose equality `==` and passing `true` selects strict
equality `===`; `[1,2,2,3,1].distinct()` yields `[1,2,3]`, and the mixed
list `[1, "1"]` collapses under the default comparer but not under the
strict one. -/
theorem distinct_first_occurrence (l : List JSVal) :
    (toEqualityComparerSafe jsLooseEq jsStrictEq EqComparerArg.missing = jsLooseEq)
    ∧ (toEqualityComparerSafe jsLooseEq jsStrictEq EqComparerArg.strict = jsStrictEq)
    ∧ (distinctList jsLooseEq l).Pairwise
        (fun a b => jsLooseEq a b = false ∧ jsLooseEq b a = false)
    ∧ distinctList jsLooseEq l = dedupFirstBy jsLooseEq l
    ∧ (distinctList jsLooseEq l).Sublist l
    ∧ (∀ x ∈ l, ∃ y ∈ distinctList jsLooseEq l, x = y ∨ jsLooseEq x y = true)
    ∧ distinctList jsLooseEq
        [JSVal.num 1, JSVal.num 2, JSVal.num 2, JSVal.num 3, JSVal.num 1]
        = [JSVal.num 1, JSVal.num 2, JSVal.num 3]
    ∧ distinctList (toEqualityComparerSafe jsLooseEq jsStrictEq EqComparerArg.missing)
        [JSVal.num 1, JSVal.str ("1")] = [JSVal.num 1]
    ∧ distinctList (toEqualityComparerSafe jsLooseEq jsStrictEq EqComparerArg.strict)
        [JSVal.num 1, JSVal.str ("1")] = [JSVal.num 1, JSVal.str ("1")] := by
  refine ⟨rfl, rfl, ?_, ?_, ?_, ?_, by decide, by decide, by decide⟩
  · exact (distinctByInner_pairwise jsLooseEq [] l).imp
      (fun hba => ⟨by rw [jsLooseEq_symm]; exact hba, hba⟩)
  · rw [distinctList, distinctByInner_eq_dedupFirstBy]
    simp
  · exact distinctByInner_sublist jsLooseEq [] l
  · intro x hx
    exact distinctByInner_covers jsLooseEq [] l x hx (by simp)

theorem distinct_first_occurrence_witness :
    ∃ y ∈ distinctList jsLooseEq [JSVal.num 1, JSVal.num 2],
      JSVal.num 1 = y ∨ jsLooseEq (JSVal.num 1) y = true :=
  (distinct_first_occurrence [JSVal.num 1, JSVal.num 2]).2.2.2.2.2.1
    (JSVal.num 1) (by simp)

theorem iteratorEnumerable_done_state {α : Type} (s : IteratorEnumerable α)
    (h : (s.next).1 = none) : s.next = (none, s) := by
  cases hg : s.gen with
  | nil => simp [IteratorEnumerable.next, hg]
  | cons x xs => simp [IteratorEnumerable.next, hg] at h

theorem arrayEnumerable_collect_drop {α : Type} (arr : List α) :
    ∀ (n k : Nat), k ≤ arr.length → arr.length - k = n →
      ArrayEnumerable.collect { arr := arr, index := (k : Int) - 1 } n = arr.drop k := by
  intro n
  induction n with
  | zero =>
    intro k hk hn
    have hlen : arr.length ≤ k := by omega
    simp [ArrayEnumerable.collect, List.drop_eq_nil_of_le hlen]
  | succ n ih =>
    intro k hk hn
    have hklt : k < arr.length := by omega
    have hnext : ArrayEnumerable.next { arr := arr, index := (k : Int) - 1 }
        = (some (arr[k]), { arr := arr, index := (k : Int) - 1 + 1 }) := by
      unfold ArrayEnumerable.next
      have hcond : ¬ ((k : Int) - 1 + 1 ≥ (arr.length : Int)) := by
        omega
      simp only [if_neg hcond]
      have h1 : ((k : Int) - 1 + 1).toNat = k := by omega
      rw [h1, List.get?_eq_getElem?, List.getElem?_eq_getElem hklt]
    rw [ArrayEnumerable.collect, hnext]
    have h2 : (k : Int) - 1 + 1 = ((k + 1 : Nat) : Int) - 1 := by push_cast; omega
    rw [h2]
    show arr[k] :: ArrayEnumerable.collect { arr := arr, index := ((k + 1 : Nat) : Int) - 1 } n
        = arr.drop k
    rw [ih (k + 1) (by omega) (by omega), List.drop_eq_getElem_cons hklt]

/-- C9: once a pull signals done, an iterator-backed (non-resettable)
sequence keeps signaling done on every further pull without changing
state; an array-backed sequence is resettable, its done signal leaves the
state unchanged (for the reachable states with index at least -1), and
`reset()` puts the index back to -1 so that iteration restarts from the
first element and reproduces the whole array. -/
theorem done_idempotent_and_reset {α : Type} :
    (∀ (s : IteratorEnumerable α), (s.next).1 = none → ∀ n, (s.pullN n).1 = none)
    ∧ (∀ s : ArrayEnumerable α, -1 ≤ s.index → (s.next).1 = none → s.next = (none, s))
    ∧ (∀ s : ArrayEnumerable α, s.canReset = true)
    ∧ (∀ s : ArrayEnumerable α, (s.reset).index = -1)
    ∧ (∀ s : ArrayEnumerable α, (s.reset).collect s.arr.length = s.arr) := by
  refine ⟨?_, ?_, fun s => rfl, fun s => rfl, ?_⟩
  · intro s h n
    induction n with
    | zero =>
      show ((s.next).1 = none)
      exact h
    | succ n ih =>
      show (((s.next).2.pullN n).1 = none)
      rw [iteratorEnumerable_done_state s h]
      exact ih
  · intro s hidx h
    by_cases hc : (s.index + 1) ≥ (s.arr.length : Int)
    · simp [ArrayEnumerable.next, hc]
    · exfalso
      simp only [ArrayEnumerable.next, if_neg hc] at h
      rw [List.get?_eq_getElem?] at h
      have := List.getElem?_eq_none_iff.mp h
      omega
  · intro s
    have hreset : s.reset = { arr := s.arr, index := ((0 : Nat) : Int) - 1 } := by
      simp [ArrayEnumerable.reset, ArrayEnumerable.canReset]
    rw [hreset, arrayEnumerable_collect_drop s.arr s.arr.length 0 (by omega) (by omega)]
    simp

theorem done_idempotent_and_reset_witness :
    ((({ gen := [], index := 0 } : IteratorEnumerable Int).pullN 2).1 = none)
    ∧ (({ arr := [7], index := 0 } : ArrayEnumerable Int).next
        = (none, { arr := [7], index := 0 })) := by
  constructor
  · exact (done_idempotent_and_reset (α := Int)).1 { gen := [], index := 0 } rfl 2
  · exact (done_idempotent_and_reset (α := Int)).2.1 { arr := [7], index := 0 }
      (by decide) (by decide)

theorem intersectInner_eq_filter {α : Type} (second : List α) (cmp : α → α → Bool)
    (l : List α) :
    intersectInner second cmp l = l.filter (fun x => second.any (fun s => cmp x s)) := by
  induction l with
  | nil => rfl
  | cons x xs ih =>
    by_cases h : second.any (fun s => cmp x s) = true <;>
      simp [intersectInner, List.filter_cons, h, ih]

theorem distinctList_mem_iff {α : Type} [DecidableEq α] (l : List α) (x : α) :
    x ∈ distinctList (fun a b => decide (a = b)) l ↔ x ∈ l := by
  constructor
  · intro h
    exact (distinctByInner_sublist (fun a b => decide (a = b)) [] l).mem h
  · intro h
    obtain ⟨y, hy, hxy⟩ :=
      distinctByInner_covers (fun a b => decide (a = b)) [] l x h (by simp)
    rcases hxy with rfl | he
    · exact hy
    · have hxe : x = y := by simpa using he
      rwa [hxe]

/-- C10 (amended): `intersect` yields exactly those occurrences of
elements of the first sequence for which some element of the
deduplicated second sequence satisfies the comparer, in the first
order of the first sequence with duplicates from the first preserved (it is a
filter of the first sequence, not deduplicated); the second sequence is
deduplicated with the DEFAULT loose comparer before filtering, which
does not change the output when the default comparer is genuine
equality on the element domain (in particular whenever no custom
comparer semantics separate dedup-equal elements) — but with a custom
comparer it can (see the counterexample). -/
theorem intersect_occurrences {α : Type} [DecidableEq α]
    (cmpArg : EqComparerArg α) (first second : List α) :
    (∀ {β : Type} (looseEq strictEq : β → β → Bool) (cArg : EqComparerArg β)
        (f2 s2 : List β),
      intersectList looseEq strictEq cArg f2 s2
        = f2.filter (fun x => (distinctList looseEq s2).any
            (fun s => toEqualityComparerSafe looseEq strictEq cArg x s)))
    ∧ intersectList (fun a b => decide (a = b)) (fun a b => decide (a = b))
        cmpArg first second
        = first.filter (fun x => second.any
            (fun s => toEqualityComparerSafe (fun a b => decide (a = b))
              (fun a b => decide (a = b)) cmpArg x s))
    ∧ intersectList (fun a b : Int => decide (a = b)) (fun a b => decide (a = b))
        EqComparerArg.missing [1, 1, 2, 3] [1, 2, 4]
        = [1, 1, 2] := by
  refine ⟨?_, ?_, by decide⟩
  · intro β looseEq strictEq cArg f2 s2
    exact intersectInner_eq_filter _ _ f2
  · rw [intersectList, intersectInner_eq_filter]
    apply List.filter_congr
    intro x hx
    have hmem : ∀ s : α, s ∈ distinctList (fun a b => decide (a = b)) second ↔ s ∈ second :=
      fun s => distinctList_mem_iff second s
    by_cases h : second.any
        (fun s => toEqualityComparerSafe (fun a b => decide (a = b))
          (fun a b => decide (a = b)) cmpArg x s) = true
    · rw [h]
      rw [List.any_eq_true] at h ⊢
      obtain ⟨s, hs, hcs⟩ := h
      exact ⟨s, (hmem s).mpr hs, hcs⟩
    · have hf : second.any
          (fun s => toEqualityComparerSafe (fun a b => decide (a = b))
            (fun a b => decide (a = b)) cmpArg x s) = false := by
        simpa using h
      rw [hf]
      rw [List.any_eq_false] at hf ⊢
      intro s hs
      exact hf s ((hmem s).mp hs)

theorem intersect_occurrences_witness :
    intersectList (fun a b : Int => decide (a = b)) (fun a b => decide (a = b))
        EqComparerArg.missing [1, 1, 2, 3] [1, 2, 4]
      = [1, 1, 2] :=
  (intersect_occurrences (EqComparerArg.missing) [(1 : Int), 1, 2, 3] [1, 2, 4]).2.2

/-- A custom equality comparer that accepts exactly the string-valued
right-hand sides, used to witness that deduplicating the second sequence
with the default loose comparer can change the output of `intersect`. -/
def strOnlyComparer : JSVal → JSVal → Bool
  | _, JSVal.str _ => true
  | _, JSVal.num _ => false

/-- C10 counterexample: with the custom comparer `strOnlyComparer`,
`[0].intersect([1, "1"], cmp)` returns `[]` — the dedup of the second
sequence under loose equality removes `"1"` (because `1 == "1"`), so the
output is NOT "exactly those occurrences of elements of the first
sequence that are equal (per the comparer) to some element of the
second", which would be `[0]`; the eager deduplication of the second
sequence DOES change the output. -/
theorem intersect_dedup_changes_output :
    intersectList jsLooseEq jsStrictEq (EqComparerArg.custom strOnlyComparer)
        [JSVal.num 0] [JSVal.num 1, JSVal.str ("1")]
      = []
    ∧ [JSVal.num 0].filter (fun x => [JSVal.num 1, JSVal.str ("1")].any
        (fun s => strOnlyComparer x s))
      = [JSVal.num 0] := by
  exact ⟨by decide, by decide⟩

theorem exceptBuild_eq_map {α : Type} (lEq sEq : α → α → Bool) (second : ESeq α)
    (cArg : EqComparerArg α) (src : ESeq α) :
    exceptBuild lEq sEq second cArg src
      = (toArrayE (distinctTr lEq second)).map
          (fun arr => exceptTr arr (toEqualityComparerSafe lEq sEq cArg) src) := by
  unfold exceptBuild
  cases toArrayE (distinctTr lEq second) <;> rfl

theorem intersectBuild_eq_map {α : Type} (lEq sEq : α → α → Bool) (second : ESeq α)
    (cArg : EqComparerArg α) (src : ESeq α) :
    intersectBuild lEq sEq second cArg src
      = (toArrayE (distinctTr lEq second)).map
          (fun arr => intersectTr arr (toEqualityComparerSafe lEq sEq cArg) src) := by
  unfold intersectBuild
  cases toArrayE (distinctTr lEq second) <;> rfl

theorem takeTr_defers_error {α : Type} (e : Err) :
    ∀ (xs : List α) (c : Int) (junk : ESeq α), 0 ≤ c → c < (xs.length : Int) →
      toArrayE (takeTr c (xs.map Except.ok ++ Except.error e :: junk))
        = Except.ok (xs.take c.toNat) := by
  intro xs
  induction xs with
  | nil =>
    intro c junk h0 hlt
    simp at hlt
    omega
  | cons x xs ih =>
    intro c junk h0 hlt
    by_cases hc : c > 0
    · have h1 : takeTr c ((x :: xs).map Except.ok ++ Except.error e :: junk)
          = Except.ok x :: takeTr (c - 1) (xs.map Except.ok ++ Except.error e :: junk) := by
        simp [takeTr, hc]
      have hlt2 : c - 1 < (xs.length : Int) := by
        simp only [List.length_cons] at hlt
        push_cast at hlt
        omega
      rw [h1, toArrayE, ih (c - 1) junk (by omega) hlt2]
      have htake : (x :: xs).take c.toNat = x :: xs.take ((c - 1).toNat) := by
        have hnat : c.toNat = (c - 1).toNat + 1 := by omega
        rw [hnat, List.take_succ_cons]
      rw [htake]
      rfl
    · have hc0 : c = 0 := by omega
      subst hc0
      simp [takeTr, toArrayE]

/-- C1 (amended): constructing a transformation operator runs only
argument normalisation and returns the deferred sequence — it never
pulls from the upstream (receiver) sequence and never throws, whatever
the upstream trace is (including traces whose very first pull would
throw).  The exceptions are `except` and `intersect`, which eagerly
materialise (and deduplicate) their SECOND sequence at construction, so
that a throw while iterating the second sequence escapes from the
constructing call itself; on the upstream they still pull nothing.
Failures of upstream elements surface only when a terminal consumption
step pulls the offending element: consuming `take(c)` of a trace whose
error lies strictly beyond the pulled prefix succeeds. -/
theorem operator_construction_deferred {α β γ : Type} :
    (∀ (sel : α → Except Err (List β)) (src : ESeq α),
      selectManyBuild sel src = Except.ok (selectManyTr sel src))
    ∧ (∀ (f : α → Except Err β) (src : ESeq α),
      selectBuild f src = Except.ok (selectTr f src))
    ∧ (∀ (p : α → Bool) (src : ESeq α), whereBuild p src = Except.ok (whereTr p src))
    ∧ (∀ (lEq sEq : α → α → Bool) (cArg : EqComparerArg α) (src : ESeq α),
      distinctBuild lEq sEq cArg src
        = Except.ok (distinctTr (toEqualityComparerSafe lEq sEq cArg) src))
    ∧ (∀ (lEq sEq : α → α → Bool) (second : ESeq α) (cArg : EqComparerArg α)
        (src : ESeq α),
      unionBuild lEq sEq second cArg src
        = Except.ok (distinctTr (toEqualityComparerSafe lEq sEq cArg)
            (concatTr second src)))
    ∧ (∀ (count : Option Int) (src : ESeq α),
      skipBuild count src = Except.ok (skipTr (count.getD 1) src))
    ∧ (∀ (count : Option Int) (src : ESeq α),
      takeBuild count src = Except.ok (takeTr (count.getD 1) src))
    ∧ (∀ (seqs : List (ESeq α)) (src : ESeq α),
      concatArrayBuild seqs src = Except.ok (concatArrayTr seqs src))
    ∧ (∀ (seps : List α) (src : ESeq α),
      intersperseBuild seps src = Except.ok (intersperseTr seps src))
    ∧ (∀ (size : Option Int) (src : ESeq α),
      chunkBuild size src = Except.ok (chunkTr (size.getD 1) src))
    ∧ (∀ (count : Nat) (sel : Option (α → β)) (src : ESeq α) (idView : α → β),
      cloneBuild count sel src idView = Except.ok (cloneTr count sel src idView))
    ∧ (∀ (src : ESeq (Sum α (List α))), flattenBuild src = Except.ok (flattenTr src))
    ∧ (∀ (second : ESeq β) (f : α → β → Nat → γ) (src : ESeq α),
      zipBuild second f src = Except.ok (zipTr f src second))
    ∧ (∀ (act : α → Nat → Except Err Unit) (src : ESeq α),
      pipeBuild act src = Except.ok (pipeTr act src))
    ∧ (∀ (coerce : String → α → Except Err β) (type : String) (src : ESeq α),
      castBuild coerce type src
        = Except.ok (selectTr (fun x => coerce (type.trim) x) src))
    ∧ (∀ (f : α → α) (src : ESeq α),
      numericMapBuild f src = Except.ok (selectTr (fun x => Except.ok (f x)) src))
    ∧ (∀ (lEq sEq : α → α → Bool) (second : ESeq α) (cArg : EqComparerArg α)
        (src : ESeq α),
      exceptBuild lEq sEq second cArg src
        = (toArrayE (distinctTr lEq second)).map
            (fun arr => exceptTr arr (toEqualityComparerSafe lEq sEq cArg) src))
    ∧ (∀ (lEq sEq : α → α → Bool) (second : ESeq α) (cArg : EqComparerArg α)
        (src : ESeq α),
      intersectBuild lEq sEq second cArg src
        = (toArrayE (distinctTr lEq second)).map
            (fun arr => intersectTr arr (toEqualityComparerSafe lEq sEq cArg) src))
    ∧ (∀ (e : Err) (xs : List α) (c : Int) (junk : ESeq α),
        0 ≤ c → c < (xs.length : Int) →
      toArrayE (takeTr c (xs.map Except.ok ++ Except.error e :: junk))
        = Except.ok (xs.take c.toNat)) := by
  refine ⟨fun _ _ => rfl, fun _ _ => rfl, fun _ _ => rfl, fun _ _ _ _ => rfl,
    fun _ _ _ _ _ => rfl, fun _ _ => rfl, fun _ _ => rfl, fun _ _ => rfl,
    fun _ _ => rfl, fun _ _ => rfl, fun _ _ _ _ => rfl, fun _ => rfl,
    fun _ _ _ => rfl, fun _ _ => rfl, fun _ _ _ => rfl, fun _ _ => rfl,
    ?_, ?_, ?_⟩
  · intro lEq sEq second cArg src
    exact exceptBuild_eq_map lEq sEq second cArg src
  · intro lEq sEq second cArg src
    exact intersectBuild_eq_map lEq sEq second cArg src
  · intro e xs c junk h0 hlt
    exact takeTr_defers_error e xs c junk h0 hlt

theorem operator_construction_deferred_witness :
    toArrayE (takeTr 1 (([(10 : Int), 20].map Except.ok) ++ Except.error ("late") :: []))
      = Except.ok ([(10 : Int), 20].take ((1 : Int)).toNat) := by
  have h := operator_construction_deferred (α := Int) (β := Int) (γ := Int)
  exact h.2.2.2.2.2.2.2.2.2.2.2.2.2.2.2.2.2.2 ("late") [10, 20] 1 []
    (by decide) (by decide)

/-- C1 counterexample: merely constructing `except` CAN fail — calling
`except(second)` evaluates `from(second).distinct().toArray()` before the
deferred generator is created, so a second sequence whose first pull
throws makes the construction itself throw, refuting "merely
constructing a transformation operator (…, except, intersect, …) …
never fails". -/
theorem except_construction_fails :
    exceptBuild (fun a b : Int => decide (a = b)) (fun a b => decide (a = b))
        [Except.error ("boom")] EqComparerArg.missing [Except.ok 1]
      = Except.error ("boom") := by
  rfl

theorem comparerDefault_eq_zero_iff {U : Type} [LinearOrder U] (x y : U) :
    comparerDefault x y = 0 ↔ x = y := by
  rcases lt_trichotomy x y with h | h | h
  · simp [comparerDefault, h.ne, h]
  · simp [comparerDefault, h]
  · simp [comparerDefault, h.ne.symm, h.asymm, h]

theorem comparerDefault_le_iff {U : Type} [LinearOrder U] (x y : U) :
    comparerDefault x y ≤ 0 ↔ x ≤ y := by
  rcases lt_trichotomy x y with h | h | h
  · simp [comparerDefault, h.ne, h, h.le]
  · simp [comparerDefault, h]
  · simp [comparerDefault, h.ne.symm, h.asymm, h, not_le.mpr h]

theorem thenByComparer_eq {U V : Type} (cmp0 : U → U → Int) (cmp1 : V → V → Int)
    (a b : U × V) :
    thenByComparer cmp0 cmp1 a b
      = if cmp0 a.1 b.1 ≠ 0 then cmp0 a.1 b.1 else cmp1 a.2 b.2 := by
  unfold thenByComparer
  by_cases h0 : cmp0 a.1 b.1 ≠ 0
  · simp [h0]
  · by_cases h1 : cmp1 a.2 b.2 ≠ 0
    · simp [h0, h1]
    · simp only [not_not] at h0 h1
      simp [h0, h1]

theorem thenByComparer_default_le_iff {U V : Type} [LinearOrder U] [LinearOrder V]
    (a b : U × V) :
    thenByComparer comparerDefault comparerDefault a b ≤ 0
      ↔ (a.1 < b.1 ∨ (a.1 = b.1 ∧ a.2 ≤ b.2)) := by
  rw [thenByComparer_eq]
  by_cases h0 : comparerDefault a.1 b.1 = 0
  · have he : a.1 = b.1 := (comparerDefault_eq_zero_iff _ _).mp h0
    rw [if_neg (by simpa using h0)]
    simp [he, comparerDefault_le_iff, lt_irrefl]
  · have hne : a.1 ≠ b.1 := fun he =>
      h0 ((comparerDefault_eq_zero_iff _ _).mpr he)
    simp only [h0, ne_eq, not_false_eq_true, if_true, comparerDefault_le_iff]
    constructor
    · intro hle
      exact Or.inl (lt_of_le_of_ne hle hne)
    · intro hor
      rcases hor with hlt | ⟨heq, _⟩
      · exact hlt.le
      · exact absurd heq hne

theorem map_snd_decorate {T U : Type} (sel : T → U) (items : List T) :
    (items.map (fun x => (sel x, x))).map Prod.snd = items := by
  induction items with
  | nil => rfl
  | cons x xs ih => simp [ih]

theorem orderByList_perm {T U : Type} (sel : T → U) (cmp : U → U → Int)
    (items : List T) : (orderByList sel cmp items).Perm items := by
  unfold orderByList
  have h1 := List.mergeSort_perm (items.map (fun x => (sel x, x)))
    (fun a b => decide (cmp a.1 b.1 ≤ 0))
  have h2 := h1.map Prod.snd
  rwa [map_snd_decorate] at h2

theorem orderByList_sorted {T U : Type} (sel : T → U) (cmp : U → U → Int)
    (trans : ∀ a b c : U, cmp a b ≤ 0 → cmp b c ≤ 0 → cmp a c ≤ 0)
    (total : ∀ a b : U, cmp a b ≤ 0 ∨ cmp b a ≤ 0)
    (items : List T) :
    (orderByList sel cmp items).Pairwise (fun a b => cmp (sel a) (sel b) ≤ 0) := by
  unfold orderByList
  rw [List.pairwise_map]
  have hsorted := @List.sorted_mergeSort (U × T)
    (fun (a b : U × T) => decide (cmp a.1 b.1 ≤ 0))
    (fun a b c hab hbc => by
      simp only [decide_eq_true_eq] at hab hbc ⊢
      exact trans a.1 b.1 c.1 hab hbc)
    (fun a b => by
      rcases total a.1 b.1 with h | h <;> simp [h])
    (items.map (fun x => (sel x, x)))
  refine hsorted.imp_of_mem ?_
  intro a b ha hb hab
  have ha2 : a.1 = sel a.2 := by
    have := List.mem_mergeSort.mp ha
    obtain ⟨x, _, hx⟩ := List.mem_map.mp this
    rw [← hx]
  have hb2 : b.1 = sel b.2 := by
    have := List.mem_mergeSort.mp hb
    obtain ⟨x, _, hx⟩ := List.mem_map.mp this
    rw [← hx]
  simp only [decide_eq_true_eq] at hab
  rw [ha2, hb2] at hab
  exact hab

theorem orderByList_filter_eq {T U : Type} (sel : T → U) (cmp : U → U → Int)
    (trans : ∀ a b c : U, cmp a b ≤ 0 → cmp b c ≤ 0 → cmp a c ≤ 0)
    (total : ∀ a b : U, cmp a b ≤ 0 ∨ cmp b a ≤ 0)
    (q : T → Bool)
    (hq : ∀ x y : T, q x = true → q y = true → cmp (sel x) (sel y) ≤ 0)
    (items : List T) :
    (orderByList sel cmp items).filter q = items.filter q := by
  have hpw : ((items.filter q).map (fun x => (sel x, x))).Pairwise
      (fun a b : U × T => decide (cmp a.1 b.1 ≤ 0) = true) := by
    rw [List.pairwise_map]
    apply List.pairwise_of_forall_mem_list
    intro a ha b hb
    have hqa := (List.mem_filter.mp ha).2
    have hqb := (List.mem_filter.mp hb).2
    simpa using hq a b hqa hqb
  have hsubd : ((items.filter q).map (fun x => (sel x, x))).Sublist
      (items.map (fun x => (sel x, x))) :=
    (List.filter_sublist items).map _
  have hsub2 := @List.sublist_mergeSort (U × T)
    (fun (a b : U × T) => decide (cmp a.1 b.1 ≤ 0))
    (items.map (fun x => (sel x, x)))
    (fun a b c hab hbc => by
      simp only [decide_eq_true_eq] at hab hbc ⊢
      exact trans a.1 b.1 c.1 hab hbc)
    (fun a b => by
      rcases total a.1 b.1 with h | h <;> simp [h])
    ((items.filter q).map (fun x => (sel x, x)))
    hpw hsubd
  have hsub3 : (items.filter q).Sublist (orderByList sel cmp items) := by
    have := hsub2.map Prod.snd
    unfold orderByList
    rwa [map_snd_decorate] at this
  have hsub4 : (items.filter q).Sublist ((orderByList sel cmp items).filter q) := by
    have := hsub3.filter q
    simpa [List.filter_filter] using this
  have hlen : ((orderByList sel cmp items).filter q).length
      = (items.filter q).length :=
    ((orderByList_perm sel cmp items).filter q).length_eq
  exact (hsub4.eq_of_length hlen.symm).symm

/-- C2: `orderBy(k).toArray()` is a stable sort of the snapshot taken at
construction: a permutation, sorted on the keys, with every
equal-key class appearing exactly as in the original snapshot (elements
whose keys compare equal retain their original relative order); `thenBy`
re-derives a fresh ordering from the original snapshot (its
`originalItems` are unchanged) with a composite comparer that compares
the previous keys first, falls back to the new keys only on ties and
returns 0 only when all levels tie, so stability holds for the composite
key as well; sorting `[(1, 0), (1, 1)]` by the first component preserves
the order of the two equal-key elements. -/
theorem orderBy_stable_thenBy {T U V : Type} [LinearOrder U] [LinearOrder V]
    (items : List T) (sel : T → U) (sel2 : T → V) :
    ((orderBy items sel none).toArray).Perm items
    ∧ ((orderBy items sel none).toArray).Pairwise (fun a b => sel a ≤ sel b)
    ∧ (∀ k : U, ((orderBy items sel none).toArray).filter
          (fun x => decide (sel x = k))
        = items.filter (fun x => decide (sel x = k)))
    ∧ ((orderBy items sel none).thenBy sel2 none).originalItems = items
    ∧ (∀ (U2 V2 : Type) (cmp0 : U2 → U2 → Int) (cmp1 : V2 → V2 → Int)
        (a b : U2 × V2),
        thenByComparer cmp0 cmp1 a b = 0 ↔ (cmp0 a.1 b.1 = 0 ∧ cmp1 a.2 b.2 = 0))
    ∧ (∀ (k1 : U) (k2 : V),
        (((orderBy items sel none).thenBy sel2 none).toArray).filter
            (fun x => decide (sel x = k1 ∧ sel2 x = k2))
          = items.filter (fun x => decide (sel x = k1 ∧ sel2 x = k2)))
    ∧ (orderBy [((1 : Int), (0 : Int)), (1, 1)] Prod.fst none).toArray
        = [(1, 0), (1, 1)] := by
  have transD : ∀ (W : Type) [LinearOrder W], ∀ a b c : W,
      comparerDefault a b ≤ 0 → comparerDefault b c ≤ 0 → comparerDefault a c ≤ 0 := by
    intro W _ a b c hab hbc
    rw [comparerDefault_le_iff] at hab hbc ⊢
    exact le_trans hab hbc
  have totalD : ∀ (W : Type) [LinearOrder W], ∀ a b : W,
      comparerDefault a b ≤ 0 ∨ comparerDefault b a ≤ 0 := by
    intro W _ a b
    rw [comparerDefault_le_iff, comparerDefault_le_iff]
    exact le_total a b
  have transL : ∀ a b c : U × V,
      thenByComparer comparerDefault comparerDefault a b ≤ 0 →
      thenByComparer comparerDefault comparerDefault b c ≤ 0 →
      thenByComparer comparerDefault comparerDefault a c ≤ 0 := by
    intro a b c hab hbc
    rw [thenByComparer_default_le_iff] at hab hbc ⊢
    rcases hab with h1 | ⟨he1, hle1⟩
    · rcases hbc with h2 | ⟨he2, _⟩
      · exact Or.inl (lt_trans h1 h2)
      · exact Or.inl (he2 ▸ h1)
    · rcases hbc with h2 | ⟨he2, hle2⟩
      · exact Or.inl (he1 ▸ h2)
      · exact Or.inr ⟨he1.trans he2, le_trans hle1 hle2⟩
  have totalL : ∀ a b : U × V,
      thenByComparer comparerDefault comparerDefault a b ≤ 0 ∨
      thenByComparer comparerDefault comparerDefault b a ≤ 0 := by
    intro a b
    rw [thenByComparer_default_le_iff, thenByComparer_default_le_iff]
    rcases lt_trichotomy a.1 b.1 with h | h | h
    · exact Or.inl (Or.inl h)
    · rcases le_total a.2 b.2 with h2 | h2
      · exact Or.inl (Or.inr ⟨h, h2⟩)
      · exact Or.inr (Or.inr ⟨h.symm, h2⟩)
    · exact Or.inr (Or.inl h)
  refine ⟨orderByList_perm sel comparerDefault items, ?_, ?_, rfl, ?_, ?_, ?_⟩
  · refine (orderByList_sorted sel comparerDefault (transD U) (totalD U) items).imp ?_
    intro a b h
    rwa [comparerDefault_le_iff] at h
  · intro k
    apply orderByList_filter_eq sel comparerDefault (transD U) (totalD U)
    intro x y hx hy
    simp only [decide_eq_true_eq] at hx hy
    rw [comparerDefault_le_iff, hx, hy]
  · intro U2 V2 cmp0 cmp1 a b
    rw [thenByComparer_eq]
    by_cases h0 : cmp0 a.1 b.1 = 0
    · simp [h0]
    · simp [h0]
  · intro k1 k2
    apply orderByList_filter_eq (fun x => (sel x, sel2 x))
      (thenByComparer comparerDefault comparerDefault) transL totalL
    intro x y hx hy
    simp only [decide_eq_true_eq] at hx hy
    rw [thenByComparer_default_le_iff]
    exact Or.inr ⟨by rw [hx.1, hy.1], by rw [hx.2, hy.2]⟩
  · have hperm := orderByList_perm Prod.fst comparerDefault
      [((1 : Int), (0 : Int)), (1, 1)]
    have hstab := orderByList_filter_eq Prod.fst comparerDefault
      (transD Int) (totalD Int) (fun x => decide (x.1 = 1))
      (by
        intro x y hx hy
        simp only [decide_eq_true_eq] at hx hy
        rw [comparerDefault_le_iff, hx, hy])
      [((1 : Int), (0 : Int)), (1, 1)]
    have hresult : (orderByList Prod.fst comparerDefault
        [((1 : Int), (0 : Int)), (1, 1)]).filter (fun x => decide (x.1 = 1))
        = orderByList Prod.fst comparerDefault [((1 : Int), (0 : Int)), (1, 1)] := by
      apply List.filter_eq_self.mpr
      intro x hx
      have hx2 := hperm.mem_iff.mp hx
      simp only [List.mem_cons, List.mem_singleton] at hx2
      rcases hx2 with rfl | hx2
      · decide
      · rcases hx2 with rfl | hx2
        · decide
        · simp at hx2
    have hitems : ([((1 : Int), (0 : Int)), (1, 1)]).filter
        (fun x => decide (x.1 = 1)) = [((1 : Int), (0 : Int)), (1, 1)] := by decide
    show orderByList Prod.fst comparerDefault [((1 : Int), (0 : Int)), (1, 1)]
        = [(1, 0), (1, 1)]
    rw [← hresult, hstab, hitems]

end NodeEnumerable
